import Mathlib

/-!
# Verification of an in-process LRU cache with TTL expiration

Shallow embedding of the Go package `lru` (files `lru.go`, `safe_lru.go`,
`observable.go`) and proofs about it.

Modelling conventions:
* `time.Time` instants are integers (say, nanoseconds since some epoch);
  the zero `time.Time` value ("never expires") is modelled by `Option Int`
  with `none` standing for the zero instant.  `time.Duration` is an `Int`.
* Every place the Go code calls `time.Now()` becomes an explicit `now : Int`
  parameter of the embedded operation.  `SetWithTTL` calls `time.Now()` twice
  (once in `time.Now().Add(ttl)`, once inside `hasExpired`), so it takes two
  instants `now` and `now'`; a monotonic clock guarantees `now ≤ now'`.
* The Go map `items map[string]*list.Element` is modelled by its key set
  (`Finset String`); the `*list.Element` a key maps to is recovered as the
  node of `usageOrder` carrying that key (`List.find?`).  Branches that Go
  reaches only through a pointer the map guarantees to be valid (a key in the
  map whose node would be missing from the list) are totalized to leave the
  cache unchanged; the representation invariant `Inv` below rules them out.
* The doubly-linked `container/list` recency order is a `List` of entries,
  front = most recently used, back = least recently used.
* Values have an opaque type `V` (Go `any`); Go's `nil`-or-value results are
  `Option V`.  Metric emission (`prometheus` counters) is pure side channel
  and is not modelled.
* A Go `panic` is modelled by returning `none` from an `Option`-valued
  embedding of the operation.
-/

namespace Caching

/-- Status strings returned by the set family of operations (`lru.go`). -/
def setStatusAdded : String := "added"

def setStatusUpdated : String := "updated"

def setStatusExpired : String := "expired"

/-- The stored record: key, value, optional absolute expiration instant
(`entry` in `lru.go`).  `expiresAt = none` models the zero `time.Time`. -/
structure Entry (V : Type) where
  key : String
  value : V
  expiresAt : Option Int
deriving Repr, DecidableEq

/-- `hasExpired` from `lru.go`: a non-zero expiration instant strictly in the
past has expired; the zero instant (`none`) never expires.  `now` is the value
of the `time.Now()` call the Go code makes inside this function. -/
def hasExpired (expiration : Option Int) (now : Int) : Bool :=
  match expiration with
  | none => false
  | some t => t < now

/-- The cache engine state (`LRUCache` in `lru.go`).  `items` is the key set
of the Go map; `usageOrder` is the recency list, front = most recent.  The
`name` field only labels metrics and is not modelled. -/
structure LRUCache (V : Type) where
  capacity : Int
  items : Finset String
  usageOrder : List (Entry V)
deriving DecidableEq

/-- `NewLRUCache` from `lru.go`: empty map, empty list. -/
def NewLRUCache (V : Type) (capacity : Int) : LRUCache V :=
  { capacity := capacity, items := ∅, usageOrder := [] }

namespace LRUCache

variable {V : Type}

/-- The node of `usageOrder` the Go map would hand back for `key`. -/
def lookupElem (cache : LRUCache V) (key : String) : Option (Entry V) :=
  cache.usageOrder.find? (fun e => e.key == key)

/-- `remove` from `lru.go` (the `reason` argument only labels metrics):
detach the key's node from the recency list and delete the key from the map;
no-op when the key is absent. -/
def remove (cache : LRUCache V) (key : String) : LRUCache V :=
  if key ∈ cache.items then
    { cache with
        items := cache.items.erase key
        usageOrder := cache.usageOrder.eraseP (fun e => e.key == key) }
  else cache

/-- `Get` from `lru.go`.  Returns the Go result pair `(value, found)` together
with the state after the call; `now` is the instant `time.Now()` returns
inside the expiration check. -/
def Get (cache : LRUCache V) (key : String) (now : Int) :
    (Option V × Bool) × LRUCache V :=
  if key ∈ cache.items then
    match cache.usageOrder.find? (fun e => e.key == key) with
    | some e =>
      if hasExpired e.expiresAt now then
        ((none, false), cache.remove key)
      else
        ((some e.value, true),
          { cache with
              usageOrder := e :: cache.usageOrder.eraseP (fun x => x.key == key) })
    | none => ((none, false), cache)
  else
    ((none, false), cache)

/-- `update` from `lru.go`: overwrite the found node's value and expiration in
place and move it to the front of the recency list. -/
def update (cache : LRUCache V) (key : String) (value : V)
    (expiration : Option Int) : LRUCache V :=
  match cache.usageOrder.find? (fun e => e.key == key) with
  | some e =>
    { cache with
        usageOrder :=
          { e with value := value, expiresAt := expiration } ::
            cache.usageOrder.eraseP (fun x => x.key == key) }
  | none => cache

/-- `checkCapacity` from `lru.go`: when the list already holds at least
`capacity` nodes, remove the back (least recently used) node. -/
def checkCapacity (cache : LRUCache V) : LRUCache V :=
  if (cache.usageOrder.length : Int) ≥ cache.capacity then
    match cache.usageOrder.getLast? with
    | some leastRecentlyUsed => cache.remove leastRecentlyUsed.key
    | none => cache
  else cache

/-- `set` from `lru.go`: update in place when the key is present, otherwise
enforce capacity and push a fresh node to the front.  Returns the new state
and the status string. -/
def set (cache : LRUCache V) (key : String) (value : V)
    (expiration : Option Int) : LRUCache V × String :=
  if key ∈ cache.items then
    (cache.update key value expiration, setStatusUpdated)
  else
    ({ cache.checkCapacity with
        items := insert key cache.checkCapacity.items
        usageOrder := ⟨key, value, expiration⟩ :: cache.checkCapacity.usageOrder },
      setStatusAdded)

/-- `Set` from `lru.go`: insert or update with no expiration (zero time). -/
def Set (cache : LRUCache V) (key : String) (value : V) : LRUCache V × String :=
  cache.set key value none

/-- `SetWithTTL` from `lru.go`.  `now` is the `time.Now()` used to compute the
expiration; `now'` is the second `time.Now()` read inside `hasExpired`.  The
computed instant `now + ttl` is not the Go zero time for any realistic clock,
so it is embedded as `some (now + ttl)`. -/
def SetWithTTL (cache : LRUCache V) (key : String) (value : V)
    (ttl now now' : Int) : LRUCache V × String :=
  if ¬ hasExpired (some (now + ttl)) now' then
    cache.set key value (some (now + ttl))
  else
    (cache.remove key, setStatusExpired)

/-- `Remove` from `lru.go`: `remove` with the "manual" metric reason. -/
def Remove (cache : LRUCache V) (key : String) : LRUCache V :=
  cache.remove key

/-- `Capacity` from `lru.go`. -/
def Capacity (cache : LRUCache V) : Int :=
  cache.capacity

/-- `Len` from `lru.go`: number of nodes in the recency list. -/
def Len (cache : LRUCache V) : Nat :=
  cache.usageOrder.length

end LRUCache

/-- The dynamic type of the object stored in a `SafeLRUCache`'s `cache` field
(Go interface `Cache`): either the concrete `*LRUCache` engine or some other
implementation of the interface (e.g. the test fake), whose behaviour is
irrelevant to the claims about the type assertions. -/
inductive CacheObj (V : Type) where
  | lru (c : LRUCache V)
  | other
deriving DecidableEq

/-- `SafeLRUCache` from `safe_lru.go`: a mutex (not modelled — the lock has no
sequential semantics) around an object implementing the `Cache` interface. -/
structure SafeLRUCache (V : Type) where
  cache : CacheObj V
deriving DecidableEq

namespace SafeLRUCache

variable {V : Type}

/-- `UnsafePeek` from `safe_lru.go`: read the value for `key` straight out of
the engine's map, with no recency update, no expiration check, and no state
change.  The result is `none` when the Go code panics (the wrapped object is
not a `*LRUCache`), otherwise `some` of the `(value, found)` pair. -/
def UnsafePeek (safeCache : SafeLRUCache V) (key : String) :
    Option (Option V × Bool) :=
  match safeCache.cache with
  | .lru lru =>
    if key ∈ lru.items then
      match lru.usageOrder.find? (fun e => e.key == key) with
      | some e => some (some e.value, true)
      | none => some (none, false)
    else some (none, false)
  | .other => none

end SafeLRUCache

/-- `ObservableCacheItem` from the observability file: one display row. -/
structure ObservableCacheItem where
  key : String
  value : String
  expiresAt : Option Int
  prev : String
  next : String
deriving Repr, DecidableEq

/-- `ObservableCacheState` from the observability file. -/
structure ObservableCacheState where
  capacity : Int
  items : List ObservableCacheItem
deriving Repr, DecidableEq

/-- `ObservableCache` from the observability file: wraps a `SafeLRUCache`. -/
structure ObservableCache (V : Type) where
  cache : SafeLRUCache V

/-- The loop body of `State`: walk the recency list front to back, carrying
the previously emitted key (`""` before the first node), and emit each node's
key, rendered value, expiration and neighbour keys.  `render` stands for Go's
`fmt.Sprintf` on the opaque value. -/
def stateItems {V : Type} (render : V → String) :
    List (Entry V) → String → List ObservableCacheItem
  | [], _ => []
  | e :: rest, prev =>
    { key := e.key
      value := render e.value
      expiresAt := e.expiresAt
      prev := prev
      next :=
        match rest with
        | [] => ""
        | e2 :: _ => e2.key } :: stateItems render rest e.key

/-- The key of the `i`-th node of a recency list, or `""` past the end — the
form in which `State` reports neighbour links. -/
def keyAt {V : Type} (l : List (Entry V)) (i : Nat) : String :=
  match l[i]? with
  | some e => e.key
  | none => ""

/-- `State` from the observability file: with the lock held, type-assert the
wrapped object down to the concrete engine (returning the zero-valued empty
projection on failure) and linearize the recency order. -/
def State {V : Type} (observable : ObservableCache V) (render : V → String) :
    ObservableCacheState :=
  match observable.cache.cache with
  | .lru lru =>
    { capacity := lru.capacity, items := stateItems render lru.usageOrder "" }
  | .other => { capacity := 0, items := [] }

/-- One engine operation, for stating properties of arbitrary call sequences.
The time arguments are the values of the `time.Now()` reads the operation
performs. -/
inductive Op (V : Type) where
  | get (key : String) (now : Int)
  | set (key : String) (value : V)
  | setWithTTL (key : String) (value : V) (ttl now now' : Int)
  | remove (key : String)

/-- Apply one operation to a cache, discarding the returned values. -/
def applyOp {V : Type} (cache : LRUCache V) : Op V → LRUCache V
  | .get k now => (cache.Get k now).2
  | .set k v => (cache.Set k v).1
  | .setWithTTL k v ttl now now' => (cache.SetWithTTL k v ttl now now').1
  | .remove k => cache.Remove k

/-- Run a sequence of operations left to right. -/
def runOps {V : Type} (cache : LRUCache V) (ops : List (Op V)) : LRUCache V :=
  ops.foldl applyOp cache

namespace LRUCache

variable {V : Type}

/-- Representation invariant tying the map to the recency list: the list
carries no duplicate keys and the map's key set is exactly the set of keys on
the list (spec invariant 2, and the bijection underlying invariant 1). -/
def Inv (c : LRUCache V) : Prop :=
  (c.usageOrder.map Entry.key).Nodup ∧
    c.items = (c.usageOrder.map Entry.key).toFinset

theorem map_key_eraseP (l : List (Entry V)) (k : String) :
    (l.eraseP (fun e => e.key == k)).map Entry.key = (l.map Entry.key).erase k := by
  rw [List.erase_eq_eraseP, List.eraseP_map]
  have hp : ((fun x => k == x) ∘ Entry.key : Entry V → Bool) =
      fun e => e.key == k := by
    funext e
    exact BEq.comm
  rw [hp]

theorem length_eraseP_key {l : List (Entry V)} {k : String}
    (h : k ∈ l.map Entry.key) :
    (l.eraseP (fun e => e.key == k)).length = l.length - 1 := by
  obtain ⟨e, he, hk⟩ := List.mem_map.1 h
  exact List.length_eraseP_of_mem he (by simp [hk])

theorem eraseP_key_of_not_mem {l : List (Entry V)} {k : String}
    (h : k ∉ l.map Entry.key) :
    l.eraseP (fun e => e.key == k) = l := by
  refine List.eraseP_of_forall_not (fun e he hp => h ?_)
  exact List.mem_map.2 ⟨e, he, by simpa using hp⟩

theorem toFinset_erase_of_nodup {l : List String} (h : l.Nodup) (k : String) :
    (l.erase k).toFinset = l.toFinset.erase k := by
  ext a
  simp [List.Nodup.mem_erase_iff h, Finset.mem_erase, List.mem_toFinset,
    and_comm]

/-- Under the invariant, the sizes of the map and of the recency list agree
(spec invariant 1, equality part). -/
theorem card_items_eq_length {c : LRUCache V} (h : Inv c) :
    c.items.card = c.usageOrder.length := by
  rw [h.2, List.toFinset_card_of_nodup h.1, List.length_map]

theorem remove_capacity (c : LRUCache V) (k : String) :
    (c.remove k).capacity = c.capacity := by
  unfold remove; split <;> rfl

theorem remove_of_not_mem {c : LRUCache V} {k : String} (hk : k ∉ c.items) :
    c.remove k = c := by
  unfold remove
  exact if_neg hk

theorem inv_remove {c : LRUCache V} (k : String) (h : Inv c) :
    Inv (c.remove k) := by
  unfold remove
  split
  · next hk =>
    refine ⟨?_, ?_⟩
    · rw [map_key_eraseP]
      exact h.1.erase k
    · rw [map_key_eraseP, toFinset_erase_of_nodup h.1, h.2]
  · exact h

theorem remove_length_of_mem {c : LRUCache V} {k : String} (h : Inv c)
    (hk : k ∈ c.items) :
    (c.remove k).usageOrder.length = c.usageOrder.length - 1 := by
  have hmap : k ∈ c.usageOrder.map Entry.key := by
    rw [h.2] at hk
    exact List.mem_toFinset.1 hk
  unfold remove
  rw [if_pos hk]
  exact length_eraseP_key hmap

theorem remove_length_le (c : LRUCache V) (k : String) :
    (c.remove k).usageOrder.length ≤ c.usageOrder.length := by
  unfold remove
  split
  · exact List.length_eraseP_le _
  · exact le_refl _

/-- Moving a node with an on-list key to the front (the shape shared by the
`Get` hit path and by `update`) preserves the invariant and the length. -/
theorem inv_moveFront {c : LRUCache V} (e' : Entry V) (k : String)
    (hk : e'.key = k) (h : Inv c)
    (hmem : k ∈ c.usageOrder.map Entry.key) :
    Inv { c with
            usageOrder := e' :: c.usageOrder.eraseP (fun x => x.key == k) } ∧
      (e' :: c.usageOrder.eraseP (fun x => x.key == k)).length =
        c.usageOrder.length := by
  subst hk
  have hpos : 0 < c.usageOrder.length := by
    rcases List.mem_map.1 hmem with ⟨e, he, _⟩
    exact List.length_pos.2 (List.ne_nil_of_mem he)
  refine ⟨⟨?_, ?_⟩, ?_⟩
  · simp only [List.map_cons, map_key_eraseP]
    exact List.Nodup.cons (h.1.not_mem_erase) (h.1.erase e'.key)
  · simp only [List.map_cons, map_key_eraseP, List.toFinset_cons,
      toFinset_erase_of_nodup h.1]
    rw [Finset.insert_erase (List.mem_toFinset.2 hmem), h.2]
  · simp only [List.length_cons, length_eraseP_key hmem]
    omega

theorem checkCapacity_capacity (c : LRUCache V) :
    c.checkCapacity.capacity = c.capacity := by
  unfold checkCapacity
  split
  · split
    · exact remove_capacity _ _
    · rfl
  · rfl

theorem inv_checkCapacity {c : LRUCache V} (h : Inv c) : Inv c.checkCapacity := by
  unfold checkCapacity
  split
  · split
    · exact inv_remove _ h
    · exact h
  · exact h

theorem checkCapacity_items_subset (c : LRUCache V) :
    c.checkCapacity.items ⊆ c.items := by
  unfold checkCapacity
  split
  · split
    · unfold remove
      split
      · exact Finset.erase_subset _ _
      · exact Finset.Subset.refl _
    · exact Finset.Subset.refl _
  · exact Finset.Subset.refl _

theorem checkCapacity_length {c : LRUCache V} (h : Inv c)
    (hcap : 0 < c.capacity)
    (hlen : (c.usageOrder.length : Int) ≤ c.capacity) :
    (c.checkCapacity.usageOrder.length : Int) ≤ c.capacity - 1 := by
  unfold checkCapacity
  split
  · next hge =>
    have hpos : 0 < c.usageOrder.length := by
      by_contra hz
      have : c.usageOrder.length = 0 := by omega
      rw [this] at hge
      omega
    cases hlast : c.usageOrder.getLast? with
    | none =>
      rw [List.getLast?_eq_none_iff] at hlast
      rw [hlast] at hpos
      simp at hpos
    | some e =>
      simp only
      have he : e ∈ c.usageOrder := List.mem_of_getLast?_eq_some hlast
      have hkey : e.key ∈ c.items := by
        rw [h.2]
        exact List.mem_toFinset.2 (List.mem_map_of_mem _ he)
      rw [remove_length_of_mem h hkey]
      omega
  · next hlt =>
    omega

theorem set_preserves {c : LRUCache V} (k : String) (v : V) (exp : Option Int)
    (h : Inv c) (hcap : 0 < c.capacity)
    (hlen : (c.usageOrder.length : Int) ≤ c.capacity) :
    Inv (c.set k v exp).1 ∧
      ((c.set k v exp).1.usageOrder.length : Int) ≤ c.capacity ∧
      (c.set k v exp).1.capacity = c.capacity := by
  unfold set
  split
  · next hk =>
    unfold update
    have hmap : k ∈ c.usageOrder.map Entry.key := by
      rw [h.2] at hk
      exact List.mem_toFinset.1 hk
    cases hf : c.usageOrder.find? (fun e => e.key == k) with
    | none =>
      exfalso
      rcases List.mem_map.1 hmap with ⟨e, he, hke⟩
      have := List.find?_eq_none.1 hf e he
      simp [hke] at this
    | some e =>
      have hek : ({ e with value := v, expiresAt := exp } : Entry V).key = k := by
        have := List.find?_some hf
        simpa using this
      obtain ⟨hinv, hlen'⟩ := inv_moveFront { e with value := v, expiresAt := exp } k hek h hmap
      refine ⟨hinv, ?_, rfl⟩
      simp only [hlen']
      exact hlen
  · next hk =>
    have hinv' := inv_checkCapacity (c := c) h
    have hlen' := checkCapacity_length (c := c) h hcap hlen
    have hknot : k ∉ c.checkCapacity.items := fun hmem =>
      hk (checkCapacity_items_subset c hmem)
    have hkmap : k ∉ c.checkCapacity.usageOrder.map Entry.key := by
      rw [hinv'.2] at hknot
      exact fun hmem => hknot (List.mem_toFinset.2 hmem)
    refine ⟨⟨?_, ?_⟩, ?_, checkCapacity_capacity c⟩
    · simpa using List.Nodup.cons hkmap hinv'.1
    · simp only [List.map_cons, List.toFinset_cons]
      rw [hinv'.2]
    · simp only [List.length_cons]
      push_cast
      omega

theorem get_preserves {c : LRUCache V} (k : String) (now : Int) (h : Inv c) :
    Inv (c.Get k now).2 ∧
      (c.Get k now).2.usageOrder.length ≤ c.usageOrder.length ∧
      (c.Get k now).2.capacity = c.capacity := by
  unfold Get
  split
  · next hk =>
    cases hf : c.usageOrder.find? (fun e => e.key == k) with
    | none => exact ⟨h, le_refl _, rfl⟩
    | some e =>
      simp only
      split
      · exact ⟨inv_remove _ h, remove_length_le _ _, remove_capacity _ _⟩
      · have hek : e.key = k := by
          have := List.find?_some hf
          simpa using this
        have hmap : k ∈ c.usageOrder.map Entry.key := by
          rw [← hek]
          exact List.mem_map_of_mem _ (List.mem_of_find?_eq_some hf)
        obtain ⟨hinv, hlen'⟩ := inv_moveFront e k hek h hmap
        exact ⟨hinv, le_of_eq hlen', rfl⟩
  · exact ⟨h, le_refl _, rfl⟩

theorem setWithTTL_preserves {c : LRUCache V} (k : String) (v : V)
    (ttl now now' : Int) (h : Inv c) (hcap : 0 < c.capacity)
    (hlen : (c.usageOrder.length : Int) ≤ c.capacity) :
    Inv (c.SetWithTTL k v ttl now now').1 ∧
      ((c.SetWithTTL k v ttl now now').1.usageOrder.length : Int) ≤ c.capacity ∧
      (c.SetWithTTL k v ttl now now').1.capacity = c.capacity := by
  unfold SetWithTTL
  split
  · exact set_preserves k v _ h hcap hlen
  · dsimp only
    refine ⟨inv_remove _ h, ?_, remove_capacity _ _⟩
    have := remove_length_le c k
    have hmono : ((c.remove k).usageOrder.length : Int) ≤
        (c.usageOrder.length : Int) := by exact_mod_cast this
    omega

end LRUCache

open LRUCache in
/-- A single operation preserves the representation invariant, the capacity
field and the capacity bound on the recency list. -/
theorem applyOp_preserves {V : Type} {c : LRUCache V} (op : Op V)
    (h : Inv c) (hcap : 0 < c.capacity)
    (hlen : (c.usageOrder.length : Int) ≤ c.capacity) :
    Inv (applyOp c op) ∧ (applyOp c op).capacity = c.capacity ∧
      ((applyOp c op).usageOrder.length : Int) ≤ c.capacity := by
  cases op with
  | get k now =>
    simp only [applyOp]
    obtain ⟨hinv, hle, hcapeq⟩ := get_preserves (c := c) k now h
    refine ⟨hinv, hcapeq, ?_⟩
    have : ((c.Get k now).2.usageOrder.length : Int) ≤
        (c.usageOrder.length : Int) := by exact_mod_cast hle
    omega
  | set k v =>
    simp only [applyOp, LRUCache.Set]
    obtain ⟨hinv, hle, hcapeq⟩ := set_preserves (c := c) k v none h hcap hlen
    exact ⟨hinv, hcapeq, hle⟩
  | setWithTTL k v ttl now now' =>
    simp only [applyOp]
    obtain ⟨hinv, hle, hcapeq⟩ :=
      setWithTTL_preserves (c := c) k v ttl now now' h hcap hlen
    exact ⟨hinv, hcapeq, hle⟩
  | remove k =>
    simp only [applyOp, LRUCache.Remove]
    refine ⟨inv_remove _ h, remove_capacity _ _, ?_⟩
    have := remove_length_le c k
    have hmono : ((c.remove k).usageOrder.length : Int) ≤
        (c.usageOrder.length : Int) := by exact_mod_cast this
    exact le_trans hmono hlen

open LRUCache in
/-- Any sequence of operations preserves the invariant and the bound. -/
theorem runOps_preserves {V : Type} (ops : List (Op V)) :
    ∀ c : LRUCache V, Inv c → 0 < c.capacity →
      (c.usageOrder.length : Int) ≤ c.capacity →
      Inv (runOps c ops) ∧ (runOps c ops).capacity = c.capacity ∧
        ((runOps c ops).usageOrder.length : Int) ≤ c.capacity := by
  induction ops with
  | nil => exact fun c h _ hlen => ⟨h, rfl, hlen⟩
  | cons op ops ih =>
    intro c h hcap hlen
    obtain ⟨hinv, hcapeq, hle⟩ := applyOp_preserves op h hcap hlen
    have := ih (applyOp c op) hinv (hcapeq ▸ hcap) (hcapeq ▸ hle)
    simpa [runOps, List.foldl_cons, hcapeq] using this

open LRUCache in
/-- C1: for every cache constructed with a positive capacity `cap`, after any
sequence of completed `Get`, `Set`, `SetWithTTL` or `Remove` operations the
number of keys in the index map equals the number of nodes in the recency
list and both are at most `cap`; in particular `Len() ≤ cap` holds after
every call of any `Set`/`SetWithTTL` sequence (such sequences are a special
case of the operation lists quantified over here, applied to every prefix). -/
theorem claim_C1 (V : Type) (cap : Int) (hcap : 0 < cap) (ops : List (Op V)) :
    (runOps (NewLRUCache V cap) ops).items.card =
        (runOps (NewLRUCache V cap) ops).usageOrder.length ∧
      ((runOps (NewLRUCache V cap) ops).usageOrder.length : Int) ≤ cap ∧
      ((runOps (NewLRUCache V cap) ops).Len : Int) ≤ cap := by
  have h0 : Inv (NewLRUCache V cap) :=
    ⟨List.nodup_nil, by simp [NewLRUCache]⟩
  obtain ⟨hinv, hcapeq, hlen⟩ :=
    runOps_preserves ops (NewLRUCache V cap) h0 hcap
      (by simp only [NewLRUCache, List.length_nil, Nat.cast_zero]; omega)
  exact ⟨card_items_eq_length hinv, hlen, by simpa [LRUCache.Len] using hlen⟩

/-- Witness for C1 at a concrete capacity and operation sequence. -/
theorem claim_C1_witness :
    (0 : Int) < 2 ∧
      ((runOps (NewLRUCache String 2)
            [Op.set "a" "1", Op.set "b" "2", Op.set "c" "3",
              Op.get "a" 5, Op.remove "b",
              Op.setWithTTL "d" "4" 10 0 0]).items.card =
          (runOps (NewLRUCache String 2)
            [Op.set "a" "1", Op.set "b" "2", Op.set "c" "3",
              Op.get "a" 5, Op.remove "b",
              Op.setWithTTL "d" "4" 10 0 0]).usageOrder.length ∧
        ((runOps (NewLRUCache String 2)
            [Op.set "a" "1", Op.set "b" "2", Op.set "c" "3",
              Op.get "a" 5, Op.remove "b",
              Op.setWithTTL "d" "4" 10 0 0]).usageOrder.length : Int) ≤ 2 ∧
        ((runOps (NewLRUCache String 2)
            [Op.set "a" "1", Op.set "b" "2", Op.set "c" "3",
              Op.get "a" 5, Op.remove "b",
              Op.setWithTTL "d" "4" 10 0 0]).Len : Int) ≤ 2) :=
  ⟨by decide,
    claim_C1 String 2 (by decide)
      [Op.set "a" "1", Op.set "b" "2", Op.set "c" "3",
        Op.get "a" 5, Op.remove "b",
        Op.setWithTTL "d" "4" 10 0 0]⟩

namespace LRUCache

variable {V : Type}

theorem checkCapacity_of_lt {c : LRUCache V}
    (h : (c.usageOrder.length : Int) < c.capacity) : c.checkCapacity = c := by
  unfold checkCapacity
  rw [if_neg (by omega)]

/-- Behaviour of `update` on a key the index holds: the entry is rewritten in
place (new value, new expiration), the list length and the index are
untouched. -/
theorem update_spec {c : LRUCache V} {k : String} (v : V) (exp : Option Int)
    (hinv : Inv c) (hk : k ∈ c.items) :
    (c.update k v exp).usageOrder.length = c.usageOrder.length ∧
      (c.update k v exp).lookupElem k = some ⟨k, v, exp⟩ ∧
      (c.update k v exp).items = c.items ∧
      (c.update k v exp).capacity = c.capacity := by
  have hmap : k ∈ c.usageOrder.map Entry.key := by
    rw [hinv.2] at hk
    exact List.mem_toFinset.1 hk
  unfold update
  cases hf : c.usageOrder.find? (fun e => e.key == k) with
  | none =>
    exfalso
    rcases List.mem_map.1 hmap with ⟨e, he, hke⟩
    have := List.find?_eq_none.1 hf e he
    simp [hke] at this
  | some e =>
    have hek : e.key = k := by
      have := List.find?_some hf
      simpa using this
    refine ⟨?_, ?_, rfl, rfl⟩
    · simp only [List.length_cons, length_eraseP_key hmap]
      have hpos : 0 < c.usageOrder.length := by
        rcases List.mem_map.1 hmap with ⟨e', he', _⟩
        exact List.length_pos.2 (List.ne_nil_of_mem he')
      omega
    · unfold lookupElem
      simp only
      rw [List.find?_cons_of_pos _ (by simpa using hek)]
      simp [hek]

/-- `Set` on an absent key with room to spare: push to the front, no
eviction. -/
theorem set_fresh {c : LRUCache V} {k : String} {v : V} (hk : k ∉ c.items)
    (hroom : (c.usageOrder.length : Int) < c.capacity) :
    c.Set k v =
      ({ c with
          items := insert k c.items
          usageOrder := ⟨k, v, none⟩ :: c.usageOrder }, setStatusAdded) := by
  unfold Set set
  rw [if_neg hk, checkCapacity_of_lt hroom]

/-- After a `remove`, the key is out of the index, whatever the prior state. -/
theorem not_mem_remove (c : LRUCache V) (k : String) :
    k ∉ (c.remove k).items := by
  unfold remove
  split
  · simp
  · next h => exact h

end LRUCache

open LRUCache in
/-- C5: `Set` on a present key returns `"updated"`, leaves `Len()` unchanged,
replaces the stored value and clears the expiration to the never-expires
sentinel; `Set` on an absent key with the cache not full returns `"added"`
and grows `Len()` by exactly one. -/
theorem claim_C5 {V : Type} (c : LRUCache V) (k : String) (v : V)
    (hinv : LRUCache.Inv c) :
    (k ∈ c.items →
      (c.Set k v).2 = setStatusUpdated ∧
        (c.Set k v).1.Len = c.Len ∧
        (c.Set k v).1.lookupElem k = some ⟨k, v, none⟩) ∧
    (k ∉ c.items → (c.Len : Int) < c.capacity →
      (c.Set k v).2 = setStatusAdded ∧ (c.Set k v).1.Len = c.Len + 1) := by
  constructor
  · intro hk
    obtain ⟨hlen, hfind, _, _⟩ := update_spec (c := c) (k := k) v none hinv hk
    unfold LRUCache.Set LRUCache.set
    rw [if_pos hk]
    exact ⟨rfl, hlen, hfind⟩
  · intro hk hroom
    rw [set_fresh hk hroom]
    exact ⟨rfl, rfl⟩

/-- Witness for C5: both branches at concrete caches. -/
theorem claim_C5_witness :
    ("a" ∈ ((NewLRUCache String 3).Set "a" "1").1.items ∧
      ((((NewLRUCache String 3).Set "a" "1").1.Set "a" "2").2 = setStatusUpdated ∧
        ((((NewLRUCache String 3).Set "a" "1").1.Set "a" "2").1.Len =
          ((NewLRUCache String 3).Set "a" "1").1.Len) ∧
        (((NewLRUCache String 3).Set "a" "1").1.Set "a" "2").1.lookupElem "a" =
          some ⟨"a", "2", none⟩)) ∧
    ("b" ∉ ((NewLRUCache String 3).Set "a" "1").1.items ∧
      ((((NewLRUCache String 3).Set "a" "1").1.Set "b" "2").2 = setStatusAdded ∧
        (((NewLRUCache String 3).Set "a" "1").1.Set "b" "2").1.Len =
          ((NewLRUCache String 3).Set "a" "1").1.Len + 1)) := by
  have hinv : LRUCache.Inv ((NewLRUCache String 3).Set "a" "1").1 :=
    ⟨by decide, by decide⟩
  refine ⟨⟨by decide, ?_⟩, ⟨by decide, ?_⟩⟩
  · exact (claim_C5 ((NewLRUCache String 3).Set "a" "1").1 "a" "2" hinv).1
      (by decide)
  · exact (claim_C5 ((NewLRUCache String 3).Set "a" "1").1 "b" "2" hinv).2
      (by decide) (by decide)

open LRUCache in
/-- C6: `Remove` is idempotent — removing an absent key changes nothing, and
removing twice in a row equals removing once. -/
theorem claim_C6 {V : Type} (c : LRUCache V) (k : String) :
    ((c.Remove k).Remove k = c.Remove k) ∧
      (k ∉ c.items → c.Remove k = c) := by
  constructor
  · exact remove_of_not_mem (not_mem_remove c k)
  · intro h
    exact remove_of_not_mem h

/-- Witness for C6: a concrete cache, a present key and an absent key. -/
theorem claim_C6_witness :
    ((((NewLRUCache String 3).Set "a" "1").1.Remove "a").Remove "a" =
        ((NewLRUCache String 3).Set "a" "1").1.Remove "a") ∧
      ("z" ∉ ((NewLRUCache String 3).Set "a" "1").1.items ∧
        ((NewLRUCache String 3).Set "a" "1").1.Remove "z" =
          ((NewLRUCache String 3).Set "a" "1").1) :=
  ⟨(claim_C6 ((NewLRUCache String 3).Set "a" "1").1 "a").1,
    by decide,
    (claim_C6 ((NewLRUCache String 3).Set "a" "1").1 "z").2 (by decide)⟩

open LRUCache in
/-- C3: `Get` on a key whose entry carries a non-zero expiration instant
strictly in the past removes the entry and answers `(nil, false)`, with
`Len()` dropping by one; `Get` on a key whose entry has no expiration, or an
expiration not yet in the past, answers the stored value with `found`. -/
theorem claim_C3 {V : Type} (c : LRUCache V) (k : String) (now : Int)
    (e : Entry V) (hk : k ∈ c.items) (hfind : c.lookupElem k = some e) :
    (∀ t, e.expiresAt = some t → t < now →
      (c.Get k now).1 = (none, false) ∧
        (c.Get k now).2 = c.remove k ∧
        (c.Get k now).2.Len = c.Len - 1 ∧
        k ∉ (c.Get k now).2.items) ∧
    ((e.expiresAt = none ∨ ∀ t, e.expiresAt = some t → ¬ t < now) →
      (c.Get k now).1 = (some e.value, true)) := by
  unfold lookupElem at hfind
  have hmap : k ∈ c.usageOrder.map Entry.key := by
    have hek : e.key = k := by
      have := List.find?_some hfind
      simpa using this
    rw [← hek]
    exact List.mem_map_of_mem _ (List.mem_of_find?_eq_some hfind)
  have hpos : 0 < c.usageOrder.length := by
    rcases List.mem_map.1 hmap with ⟨e', he', _⟩
    exact List.length_pos.2 (List.ne_nil_of_mem he')
  unfold LRUCache.Get
  rw [if_pos hk, hfind]
  dsimp only
  constructor
  · intro t ht hlt
    have hexp : hasExpired e.expiresAt now = true := by
      rw [ht]
      simpa [hasExpired] using hlt
    rw [if_pos hexp]
    refine ⟨rfl, rfl, ?_, not_mem_remove c k⟩
    unfold LRUCache.Len LRUCache.remove
    rw [if_pos hk]
    simp only [length_eraseP_key hmap]
  · intro hne
    have hexp : ¬ hasExpired e.expiresAt now = true := by
      cases ht : e.expiresAt with
      | none => simp [hasExpired]
      | some t =>
        rcases hne with h | h
        · rw [ht] at h; cases h
        · simpa [hasExpired] using h t ht
    rw [if_neg hexp]

/-- Witness for C3: an expired entry is purged by `Get`, a live one and a
never-expiring one are found. -/
theorem claim_C3_witness :
    ("a" ∈ (((NewLRUCache String 3).SetWithTTL "a" "1" 10 0 0).1).items ∧
      (((NewLRUCache String 3).SetWithTTL "a" "1" 10 0 0).1.lookupElem "a" =
        some ⟨"a", "1", some 10⟩) ∧
      ((((NewLRUCache String 3).SetWithTTL "a" "1" 10 0 0).1.Get "a" 20).1 =
          (none, false) ∧
        (((NewLRUCache String 3).SetWithTTL "a" "1" 10 0 0).1.Get "a" 20).2.Len =
          ((NewLRUCache String 3).SetWithTTL "a" "1" 10 0 0).1.Len - 1)) ∧
    ((((NewLRUCache String 3).SetWithTTL "a" "1" 10 0 0).1.Get "a" 5).1 =
      (some "1", true)) := by
  have h := claim_C3 (((NewLRUCache String 3).SetWithTTL "a" "1" 10 0 0).1)
    "a" 20 ⟨"a", "1", some 10⟩ (by decide) (by decide)
  have h5 := claim_C3 (((NewLRUCache String 3).SetWithTTL "a" "1" 10 0 0).1)
    "a" 5 ⟨"a", "1", some 10⟩ (by decide) (by decide)
  refine ⟨⟨by decide, by decide, ?_, ?_⟩, ?_⟩
  · exact (h.1 10 rfl (by decide)).1
  · exact (h.1 10 rfl (by decide)).2.2.1
  · exact h5.2 (Or.inr (fun t ht => by
      cases ht
      decide))

open LRUCache in
/-- C4 amended: `SetWithTTL` with `ttl < 0` — or with `ttl ≤ 0` when the
clock has advanced strictly between the expiration computation and the check
inside `hasExpired` — removes any existing entry for the key, inserts
nothing, and returns `"expired"`. -/
theorem claim_C4_amended {V : Type} (c : LRUCache V) (k : String) (v : V)
    (ttl now now' : Int) (hmono : now ≤ now')
    (h : ttl < 0 ∨ (ttl ≤ 0 ∧ now < now')) :
    (c.SetWithTTL k v ttl now now').2 = setStatusExpired ∧
      (c.SetWithTTL k v ttl now now').1 = c.remove k ∧
      k ∉ (c.SetWithTTL k v ttl now now').1.items := by
  have hexp : hasExpired (some (now + ttl)) now' = true := by
    simp only [hasExpired, decide_eq_true_eq]
    omega
  unfold LRUCache.SetWithTTL
  rw [if_neg (by simp [hexp])]
  exact ⟨rfl, rfl, not_mem_remove c k⟩

/-- Counterexample to C4 as stated: with `ttl = 0` and the two `time.Now()`
reads equal (so the computed expiration instant equals the instant the check
sees), `SetWithTTL` takes the insert path — the status is `"added"`, not
`"expired"`, and the key is present afterwards. -/
theorem claim_C4_counterexample :
    ((NewLRUCache String 5).SetWithTTL "k" "v" 0 0 0).2 = setStatusAdded ∧
      "k" ∈ ((NewLRUCache String 5).SetWithTTL "k" "v" 0 0 0).1.items := by
  decide

/-- Witness for C4 (amended): `ttl = -1` on a present key, and `ttl = 0` with
an advancing clock on an absent key. -/
theorem claim_C4_amended_witness :
    ((0 : Int) ≤ 0 ∧ ((-1 : Int) < 0 ∨ ((-1 : Int) ≤ 0 ∧ (0 : Int) < 0)) ∧
      ((((NewLRUCache String 3).Set "a" "1").1.SetWithTTL "a" "2" (-1) 0 0).2 =
          setStatusExpired ∧
        (((NewLRUCache String 3).Set "a" "1").1.SetWithTTL "a" "2" (-1) 0 0).1 =
          ((NewLRUCache String 3).Set "a" "1").1.remove "a" ∧
        "a" ∉ (((NewLRUCache String 3).Set "a" "1").1.SetWithTTL
            "a" "2" (-1) 0 0).1.items)) ∧
    ((0 : Int) ≤ 1 ∧ ((0 : Int) < 0 ∨ ((0 : Int) ≤ 0 ∧ (0 : Int) < 1)) ∧
      (((NewLRUCache String 3).SetWithTTL "b" "2" 0 0 1).2 = setStatusExpired ∧
        ((NewLRUCache String 3).SetWithTTL "b" "2" 0 0 1).1 =
          (NewLRUCache String 3).remove "b" ∧
        "b" ∉ ((NewLRUCache String 3).SetWithTTL "b" "2" 0 0 1).1.items)) :=
  ⟨⟨by decide, Or.inl (by decide),
      claim_C4_amended ((NewLRUCache String 3).Set "a" "1").1 "a" "2" (-1) 0 0
        (by decide) (Or.inl (by decide))⟩,
    ⟨by decide, Or.inr ⟨by decide, by decide⟩,
      claim_C4_amended (NewLRUCache String 3) "b" "2" 0 0 1
        (by decide) (Or.inr ⟨by decide, by decide⟩)⟩⟩

namespace LRUCache

variable {V : Type}

/-- Erasing the (first) node of one key does not disturb the lookup of any
other key. -/
theorem find?_eraseP_ne {l : List (Entry V)} {k k' : String} (h : k' ≠ k) :
    (l.eraseP (fun e => e.key == k)).find? (fun e => e.key == k') =
      l.find? (fun e => e.key == k') := by
  induction l with
  | nil => rfl
  | cons a l ih =>
    by_cases hak : (a.key == k) = true
    · have hak' : (a.key == k') = false := by
        refine beq_eq_false_iff_ne.2 (fun hh => h ?_)
        rw [← hh]
        exact beq_iff_eq.1 hak
      simp only [List.eraseP_cons, hak, cond_true, List.find?_cons, hak']
    · have hakf : (a.key == k) = false := by
        simpa using hak
      simp only [List.eraseP_cons, hakf, cond_false, List.find?_cons]
      cases hak' : (a.key == k') with
      | true => simp only [hak']
      | false =>
        simp only [hak']
        exact ih

/-- Frame part of `set` on a present key: other keys keep their membership
and their whole entry. -/
theorem set_frame {c : LRUCache V} {k : String} (v : V) (exp : Option Int)
    (hk : k ∈ c.items) {k' : String} (hne : k' ≠ k) :
    (c.set k v exp).1.items = c.items ∧
      (c.set k v exp).1.lookupElem k' = c.lookupElem k' := by
  unfold set update
  rw [if_pos hk]
  cases hf : c.usageOrder.find? (fun e => e.key == k) with
  | none => exact ⟨rfl, rfl⟩
  | some e =>
    have hek : e.key = k := by
      have := List.find?_some hf
      simpa using this
    refine ⟨rfl, ?_⟩
    unfold lookupElem
    dsimp only
    rw [List.find?_cons_of_neg _ (by simp [hek]; exact fun hh => hne hh.symm)]
    exact find?_eraseP_ne hne

/-- Frame part of `remove`: other keys keep their membership and entry. -/
theorem remove_frame (c : LRUCache V) (k : String) {k' : String}
    (hne : k' ≠ k) :
    ((k' ∈ (c.remove k).items) ↔ k' ∈ c.items) ∧
      (c.remove k).lookupElem k' = c.lookupElem k' := by
  unfold remove
  split
  · constructor
    · simp [Finset.mem_erase, hne]
    · unfold lookupElem
      exact find?_eraseP_ne hne
  · exact ⟨Iff.rfl, rfl⟩

end LRUCache

open LRUCache in
/-- C9: on a key already present, `Set` and `SetWithTTL` with `ttl > 0` never
evict any other entry — every other key's membership and whole entry (value
and expiration) are untouched, even on a full cache: the capacity check runs
only on the insert path for an absent key. -/
theorem claim_C9 {V : Type} (c : LRUCache V) (k : String) (v : V)
    (ttl now now' : Int) (hk : k ∈ c.items) (httl : 0 < ttl)
    (k' : String) (hne : k' ≠ k) :
    ((k' ∈ (c.Set k v).1.items ↔ k' ∈ c.items) ∧
      (c.Set k v).1.lookupElem k' = c.lookupElem k') ∧
    ((k' ∈ (c.SetWithTTL k v ttl now now').1.items ↔ k' ∈ c.items) ∧
      (c.SetWithTTL k v ttl now now').1.lookupElem k' = c.lookupElem k') := by
  constructor
  · obtain ⟨hitems, hfind⟩ := set_frame (c := c) v none hk hne
    exact ⟨by rw [LRUCache.Set, hitems], by rw [LRUCache.Set, hfind]⟩
  · unfold LRUCache.SetWithTTL
    split
    · obtain ⟨hitems, hfind⟩ := set_frame (c := c) v (some (now + ttl)) hk hne
      exact ⟨by rw [hitems], by rw [hfind]⟩
    · exact remove_frame c k hne

/-- Witness for C9: updating `"a"` in a full capacity-2 cache leaves `"b"`
and its TTL entry untouched. -/
theorem claim_C9_witness :
    ("a" ∈ (((NewLRUCache String 2).Set "a" "1").1.SetWithTTL
        "b" "2" 9 0 0).1.items ∧
      (0 : Int) < 7 ∧ "b" ≠ "a" ∧
      ((("b" ∈ ((((NewLRUCache String 2).Set "a" "1").1.SetWithTTL
              "b" "2" 9 0 0).1.Set "a" "x").1.items ↔
          "b" ∈ (((NewLRUCache String 2).Set "a" "1").1.SetWithTTL
              "b" "2" 9 0 0).1.items) ∧
        ((((NewLRUCache String 2).Set "a" "1").1.SetWithTTL
              "b" "2" 9 0 0).1.Set "a" "x").1.lookupElem "b" =
          (((NewLRUCache String 2).Set "a" "1").1.SetWithTTL
              "b" "2" 9 0 0).1.lookupElem "b") ∧
      (("b" ∈ ((((NewLRUCache String 2).Set "a" "1").1.SetWithTTL
              "b" "2" 9 0 0).1.SetWithTTL "a" "x" 7 1 1).1.items ↔
          "b" ∈ (((NewLRUCache String 2).Set "a" "1").1.SetWithTTL
              "b" "2" 9 0 0).1.items) ∧
        ((((NewLRUCache String 2).Set "a" "1").1.SetWithTTL
              "b" "2" 9 0 0).1.SetWithTTL "a" "x" 7 1 1).1.lookupElem "b" =
          (((NewLRUCache String 2).Set "a" "1").1.SetWithTTL
              "b" "2" 9 0 0).1.lookupElem "b"))) :=
  ⟨by decide, by decide, by decide,
    claim_C9 (((NewLRUCache String 2).Set "a" "1").1.SetWithTTL
        "b" "2" 9 0 0).1 "a" "x" 7 1 1 (by decide) (by decide) "b" (by decide)⟩

open SafeLRUCache in
/-- C8: `UnsafePeek` faults (modelled as `none`) exactly when the wrapped
object is not the concrete engine; on the concrete engine it returns the
stored value with `found = true` for every key in the index — with no
expiration check, so an already-expired entry is still returned.  The
embedding of `UnsafePeek` consumes no state and returns none: as in the Go
source, it performs no recency move, no purge and no length change. -/
theorem claim_C8 {V : Type} (sc : SafeLRUCache V) (key : String) :
    (sc.UnsafePeek key = none ↔ sc.cache = CacheObj.other) ∧
    (∀ lru : LRUCache V, sc.cache = CacheObj.lru lru → ∀ e : Entry V,
      key ∈ lru.items → lru.lookupElem key = some e →
      sc.UnsafePeek key = some (some e.value, true)) := by
  obtain ⟨obj⟩ := sc
  cases obj with
  | lru lru =>
    constructor
    · unfold SafeLRUCache.UnsafePeek
      constructor
      · intro h
        dsimp only at h
        split at h
        · split at h <;> cases h
        · cases h
      · intro h
        cases h
    · intro lru' hobj e hk hfind
      cases hobj
      unfold SafeLRUCache.UnsafePeek
      dsimp only
      rw [if_pos hk]
      unfold LRUCache.lookupElem at hfind
      rw [hfind]
  | other =>
    constructor
    · exact ⟨fun _ => rfl, fun _ => rfl⟩
    · intro lru hobj
      cases hobj

/-- Witness for C8: a wrapper around the concrete engine holding an
already-expired entry, and a wrapper around a non-engine implementation. -/
theorem claim_C8_witness :
    ((SafeLRUCache.mk (CacheObj.other (V := String))).UnsafePeek "a" = none) ∧
    ("a" ∈ (((NewLRUCache String 2).SetWithTTL "a" "1" 5 0 0).1).items ∧
      ((NewLRUCache String 2).SetWithTTL "a" "1" 5 0 0).1.lookupElem "a" =
        some ⟨"a", "1", some 5⟩ ∧
      (SafeLRUCache.mk (CacheObj.lru
          ((NewLRUCache String 2).SetWithTTL "a" "1" 5 0 0).1)).UnsafePeek "a" =
        some (some "1", true)) :=
  ⟨(claim_C8 (SafeLRUCache.mk (CacheObj.other (V := String))) "a").1.2 rfl,
    by decide, by decide,
    (claim_C8 (SafeLRUCache.mk (CacheObj.lru
        ((NewLRUCache String 2).SetWithTTL "a" "1" 5 0 0).1)) "a").2
      ((NewLRUCache String 2).SetWithTTL "a" "1" 5 0 0).1 rfl
      ⟨"a", "1", some 5⟩ (by decide) (by decide)⟩

theorem stateItems_length {V : Type} (render : V → String)
    (l : List (Entry V)) (prev : String) :
    (stateItems render l prev).length = l.length := by
  induction l generalizing prev with
  | nil => rfl
  | cons a l ih => simp [stateItems, ih]

theorem keyAt_cons_succ {V : Type} (a : Entry V) (l : List (Entry V))
    (i : Nat) : keyAt (a :: l) (i + 1) = keyAt l i := by
  unfold keyAt
  rw [List.getElem?_cons_succ]

/-- Index-wise description of the projection loop: item `i` reports node
`i`'s key, rendered value and expiration, the key of node `i - 1` as `prev`
(the carried-in seed for `i = 0`) and the key of node `i + 1` as `next`
(`""` past the back). -/
theorem stateItems_getElem {V : Type} (render : V → String)
    (l : List (Entry V)) (prev : String) (i : Nat) (e : Entry V)
    (h : l[i]? = some e) :
    (stateItems render l prev)[i]? =
      some ⟨e.key, render e.value, e.expiresAt,
        (if i = 0 then prev else keyAt l (i - 1)), keyAt l (i + 1)⟩ := by
  induction l generalizing prev i with
  | nil => cases h
  | cons a l ih =>
    cases i with
    | zero =>
      rw [List.getElem?_cons_zero] at h
      cases h
      simp only [stateItems, List.getElem?_cons_zero, if_pos rfl,
        keyAt_cons_succ, Option.some.injEq]
      cases l with
      | nil => simp [keyAt]
      | cons b t => simp [keyAt]
    | succ j =>
      rw [List.getElem?_cons_succ] at h
      have hprev : (if j + 1 = 0 then prev else keyAt (a :: l) (j + 1 - 1)) =
          if j = 0 then a.key else keyAt l (j - 1) := by
        cases j with
        | zero => simp [keyAt]
        | succ m =>
          rw [if_neg (by omega), if_neg (by omega)]
          have h1 : m + 1 + 1 - 1 = m + 1 := by omega
          rw [h1, keyAt_cons_succ]
          have h2 : m + 1 - 1 = m := by omega
          rw [h2]
      have hnext : keyAt (a :: l) (j + 1 + 1) = keyAt l (j + 1) :=
        keyAt_cons_succ a l (j + 1)
      simp only [stateItems, List.getElem?_cons_succ, hprev, hnext]
      exact ih a.key j h

/-- C7: `State` on a wrapper holding the concrete engine lists exactly the
recency order front to back — item `i` carries node `i`'s key, its value
rendered as text, its expiration instant, the more-recent neighbour's key as
`prev` (`""` at the front) and the less-recent neighbour's key as `next`
(`""` at the back) — plus the fixed capacity; nothing is purged or
reordered (the projection has the same length and node-by-node content as
the untouched recency list, and consumes no state).  On a wrapper whose
object is not the concrete engine it is the empty projection, not a fault. -/
theorem claim_C7 {V : Type} (observable : ObservableCache V)
    (render : V → String) :
    (∀ lru : LRUCache V, observable.cache.cache = CacheObj.lru lru →
      (State observable render).capacity = lru.capacity ∧
      (State observable render).items.length = lru.usageOrder.length ∧
      (∀ (i : Nat) (e : Entry V), lru.usageOrder[i]? = some e →
        (State observable render).items[i]? =
          some ⟨e.key, render e.value, e.expiresAt,
            (if i = 0 then "" else keyAt lru.usageOrder (i - 1)),
            keyAt lru.usageOrder (i + 1)⟩)) ∧
    (observable.cache.cache = CacheObj.other →
      State observable render = { capacity := 0, items := [] }) := by
  constructor
  · intro lru hobj
    unfold State
    rw [hobj]
    dsimp only
    exact ⟨rfl, stateItems_length render _ "",
      fun i e h => stateItems_getElem render _ "" i e h⟩
  · intro hobj
    unfold State
    rw [hobj]

/-- Witness for C7: a three-entry engine (with a TTL entry, still listed)
and a non-engine wrapper. -/
theorem claim_C7_witness :
    ((((((NewLRUCache String 3).Set "a" "1").1.SetWithTTL
          "b" "2" 5 0 0).1.Set "c" "3").1.usageOrder[1]? =
        some ⟨"b", "2", some 5⟩) ∧
      (State (ObservableCache.mk (SafeLRUCache.mk (CacheObj.lru
          ((((NewLRUCache String 3).Set "a" "1").1.SetWithTTL
            "b" "2" 5 0 0).1.Set "c" "3").1))) id).items[1]? =
        some ⟨"b", "2", some 5, "c", "a"⟩) ∧
      State (ObservableCache.mk (SafeLRUCache.mk
          (CacheObj.other : CacheObj String))) id =
        { capacity := 0, items := [] } := by
  have h := claim_C7 (ObservableCache.mk (SafeLRUCache.mk (CacheObj.lru
    ((((NewLRUCache String 3).Set "a" "1").1.SetWithTTL
      "b" "2" 5 0 0).1.Set "c" "3").1))) id
  have h2 := claim_C7 (ObservableCache.mk (SafeLRUCache.mk
    (CacheObj.other : CacheObj String))) id
  refine ⟨⟨by decide, ?_⟩, h2.2 rfl⟩
  have h1 := (h.1 _ rfl).2.2 1 ⟨"b", "2", some 5⟩ (by decide)
  rw [h1]
  decide

theorem runOps_cons {V : Type} (c : LRUCache V) (op : Op V)
    (ops : List (Op V)) : runOps c (op :: ops) = runOps (applyOp c op) ops :=
  rfl

namespace LRUCache

variable {V : Type}

theorem find?_cons_key_eq {a : Entry V} {l : List (Entry V)} {k : String}
    (h : (a.key == k) = true) :
    (a :: l).find? (fun x => x.key == k) = some a := by
  simp [List.find?_cons, h]

theorem find?_cons_key_ne {a : Entry V} {l : List (Entry V)} {k : String}
    (h : (a.key == k) = false) :
    (a :: l).find? (fun x => x.key == k) = l.find? (fun x => x.key == k) := by
  simp [List.find?_cons, h]

theorem find?_last {l : List (Entry V)} {e : Entry V} {k : String}
    (hk : (e.key == k) = true) (h : ∀ x ∈ l, (x.key == k) = false) :
    (l ++ [e]).find? (fun x => x.key == k) = some e := by
  rw [List.find?_append, List.find?_eq_none.2 (fun x hx => by simp [h x hx])]
  simp [List.find?_cons, hk]

theorem eraseP_last {l : List (Entry V)} {e : Entry V} {k : String}
    (hk : (e.key == k) = true) (h : ∀ x ∈ l, (x.key == k) = false) :
    (l ++ [e]).eraseP (fun x => x.key == k) = l := by
  rw [List.eraseP_append_right _ (fun b hb => by simp [h b hb])]
  simp [List.eraseP_cons, hk]

/-- A `Get` hit on a live entry: the returned pair and the moved-to-front
state, explicitly. -/
theorem get_hit {c : LRUCache V} {k : String} {e : Entry V} {t : Int}
    (hk : k ∈ c.items)
    (hfind : c.usageOrder.find? (fun x => x.key == k) = some e)
    (hlive : hasExpired e.expiresAt t = false) :
    c.Get k t =
      ((some e.value, true),
        { c with usageOrder := e :: c.usageOrder.eraseP (fun x => x.key == k) }) := by
  unfold Get
  rw [if_pos hk, hfind]
  dsimp only
  rw [if_neg (by simp [hlive])]

/-- A `Get` miss: key not in the index. -/
theorem get_miss {c : LRUCache V} {k : String} {t : Int}
    (hk : k ∉ c.items) :
    c.Get k t = ((none, false), c) := by
  unfold Get
  rw [if_neg hk]

/-- `Set` of an absent key on a cache at (or beyond) capacity: the back node
is evicted, then the new node is pushed. -/
theorem set_full {c : LRUCache V} {k : String} {v : V} {e : Entry V}
    (hk : k ∉ c.items) (hfull : (c.usageOrder.length : Int) ≥ c.capacity)
    (hlast : c.usageOrder.getLast? = some e) :
    c.Set k v =
      ({ c.remove e.key with
          items := insert k (c.remove e.key).items
          usageOrder := ⟨k, v, none⟩ :: (c.remove e.key).usageOrder },
        setStatusAdded) := by
  unfold Set set checkCapacity
  rw [if_neg hk, if_pos hfull, hlast]

/-- Running a sequence of `Set`s of pairwise-distinct fresh keys that all fit
within capacity: every insert takes the fresh path, so the final state stacks
the new entries (reversed) on the recency list and adds all keys to the
index. -/
theorem runSets_fresh (ps : List (String × V)) :
    ∀ c : LRUCache V, (ps.map Prod.fst).Nodup →
      (∀ p ∈ ps, p.1 ∉ c.items) →
      ((c.usageOrder.length : Int) + ps.length ≤ c.capacity) →
      runOps c (ps.map fun p => Op.set p.1 p.2) =
        { c with
            items := c.items ∪ (ps.map Prod.fst).toFinset
            usageOrder :=
              (ps.map fun p => (⟨p.1, p.2, none⟩ : Entry V)).reverse ++
                c.usageOrder } := by
  induction ps with
  | nil =>
    intro c _ _ _
    simp [runOps]
  | cons p ps ih =>
    intro c hnodup hdisj hlen
    have hnodup' : p.1 ∉ ps.map Prod.fst ∧ (ps.map Prod.fst).Nodup :=
      List.nodup_cons.1 (by rw [List.map_cons] at hnodup; exact hnodup)
    obtain ⟨hp1, hnodtail⟩ := hnodup'
    have hroom : (c.usageOrder.length : Int) < c.capacity := by
      simp only [List.length_cons] at hlen
      push_cast at hlen
      omega
    have hset := set_fresh (c := c) (k := p.1) (v := p.2)
      (hdisj p (List.mem_cons_self p ps)) hroom
    have happly : applyOp c (Op.set p.1 p.2) =
        { c with
            items := insert p.1 c.items
            usageOrder := ⟨p.1, p.2, none⟩ :: c.usageOrder } := by
      show (c.Set p.1 p.2).1 = _
      rw [hset]
    rw [List.map_cons, runOps_cons, happly, ih _ hnodtail ?_ ?_]
    · show LRUCache.mk _ _ _ = LRUCache.mk _ _ _
      congr 1
      · rw [Finset.insert_union, List.map_cons, List.toFinset_cons,
          Finset.union_insert]
      · rw [List.map_cons, List.reverse_cons, List.append_assoc,
          List.singleton_append]
    · intro q hq
      rw [Finset.mem_insert]
      push_neg
      refine ⟨fun heq => hp1 ?_, hdisj q (List.mem_cons_of_mem p hq)⟩
      rw [← heq]
      exact List.mem_map_of_mem Prod.fst hq
    · simp only [List.length_cons, List.length_cons] at hlen ⊢
      push_cast at hlen ⊢
      omega

end LRUCache

namespace LRUCache

variable {V : Type}

/-- LRU eviction scenario at full capacity: fill a fresh cache of capacity
`n = 2 + |rest2| ≥ 2` with distinct keys `k1, k2, rest2-keys` in order, `Get`
the first key, then insert one more fresh key.  The `Get`-ed key survives
(still retrievable with its value) and the second key — least recently
touched after the `Get` — is evicted. -/
theorem lru_eviction_scenario (k1 k2 knew : String) (v1 v2 vnew : V)
    (rest2 : List (String × V)) (t1 t2 t3 : Int)
    (hA1 : (k1 :: k2 :: rest2.map Prod.fst).Nodup)
    (hA2 : knew ∉ k1 :: k2 :: rest2.map Prod.fst) :
    ((runOps (NewLRUCache V (2 + rest2.length))
        (((k1, v1) :: (k2, v2) :: rest2).map fun p => Op.set p.1 p.2)).Get
          k1 t1).1 = (some v1, true) ∧
    (((((runOps (NewLRUCache V (2 + rest2.length))
        (((k1, v1) :: (k2, v2) :: rest2).map fun p => Op.set p.1 p.2)).Get
          k1 t1).2.Set knew vnew).1.Get k1 t2).1 = (some v1, true)) ∧
    (((((runOps (NewLRUCache V (2 + rest2.length))
        (((k1, v1) :: (k2, v2) :: rest2).map fun p => Op.set p.1 p.2)).Get
          k1 t1).2.Set knew vnew).1.Get k2 t3).1 = (none, false)) := by
  -- distinctness facts
  have hk1k2 : k1 ≠ k2 := by
    intro h
    rw [h] at hA1
    exact (List.nodup_cons.1 hA1).1 (List.mem_cons_self _ _)
  have hk1rest : k1 ∉ rest2.map Prod.fst := by
    intro h
    exact (List.nodup_cons.1 hA1).1 (List.mem_cons_of_mem _ h)
  have hk2rest : k2 ∉ rest2.map Prod.fst :=
    (List.nodup_cons.1 (List.nodup_cons.1 hA1).2).1
  have hknew1 : knew ≠ k1 := by
    intro h
    exact hA2 (h ▸ List.mem_cons_self _ _)
  have hknew2 : knew ≠ k2 := by
    intro h
    exact hA2 (h ▸ List.mem_cons_of_mem _ (List.mem_cons_self _ _))
  -- the state after the initial inserts
  have hnodupA : (((k1, v1) :: (k2, v2) :: rest2).map Prod.fst).Nodup := by
    rw [List.map_cons, List.map_cons]
    exact hA1
  have hs1 := runSets_fresh ((k1, v1) :: (k2, v2) :: rest2)
    (NewLRUCache V (2 + rest2.length)) hnodupA
    (fun p _ => by simp [NewLRUCache])
    (by simp [NewLRUCache]; omega)
  have hs1' : runOps (NewLRUCache V (2 + rest2.length))
      (((k1, v1) :: (k2, v2) :: rest2).map fun p => Op.set p.1 p.2) =
      ⟨2 + rest2.length,
        (((k1, v1) :: (k2, v2) :: rest2).map Prod.fst).toFinset,
        ((rest2.map fun p => (⟨p.1, p.2, none⟩ : Entry V)).reverse ++
            [⟨k2, v2, none⟩]) ++ [⟨k1, v1, none⟩]⟩ := by
    rw [hs1]
    simp [NewLRUCache, List.reverse_cons]
  -- keys appearing in the reversed middle block
  have hkeysR : ∀ x ∈ (rest2.map fun p => (⟨p.1, p.2, none⟩ : Entry V)).reverse,
      x.key ∈ rest2.map Prod.fst := by
    intro x hx
    rcases List.mem_map.1 (List.mem_reverse.1 hx) with ⟨p, hp, rfl⟩
    exact List.mem_map_of_mem _ hp
  have hmidk1 : ∀ x ∈ (rest2.map fun p => (⟨p.1, p.2, none⟩ : Entry V)).reverse ++
      [(⟨k2, v2, none⟩ : Entry V)], (x.key == k1) = false := by
    intro x hx
    rcases List.mem_append.1 hx with hx | hx
    · exact beq_eq_false_iff_ne.2 (fun h => hk1rest (h ▸ hkeysR x hx))
    · rcases List.mem_singleton.1 hx with rfl
      exact beq_eq_false_iff_ne.2 (fun h => hk1k2 h.symm)
  -- first Get: hit on k1, moved to the front
  have hfind1 : (((rest2.map fun p => (⟨p.1, p.2, none⟩ : Entry V)).reverse ++
      [(⟨k2, v2, none⟩ : Entry V)]) ++ [(⟨k1, v1, none⟩ : Entry V)]).find?
        (fun x => x.key == k1) = some ⟨k1, v1, none⟩ :=
    find?_last (e := ⟨k1, v1, none⟩) (by simp) hmidk1
  have herase1 : (((rest2.map fun p => (⟨p.1, p.2, none⟩ : Entry V)).reverse ++
      [(⟨k2, v2, none⟩ : Entry V)]) ++ [(⟨k1, v1, none⟩ : Entry V)]).eraseP
        (fun x => x.key == k1) =
      (rest2.map fun p => (⟨p.1, p.2, none⟩ : Entry V)).reverse ++
        [(⟨k2, v2, none⟩ : Entry V)] :=
    eraseP_last (e := ⟨k1, v1, none⟩) (by simp) hmidk1
  have hget1 := get_hit (c :=
      ⟨2 + (rest2.length : Int),
        (((k1, v1) :: (k2, v2) :: rest2).map Prod.fst).toFinset,
        ((rest2.map fun p => (⟨p.1, p.2, none⟩ : Entry V)).reverse ++
            [⟨k2, v2, none⟩]) ++ [⟨k1, v1, none⟩]⟩)
    (k := k1) (e := ⟨k1, v1, none⟩) (t := t1)
    (by simp) hfind1 rfl
  have hget1' : ((⟨2 + (rest2.length : Int),
      (((k1, v1) :: (k2, v2) :: rest2).map Prod.fst).toFinset,
      ((rest2.map fun p => (⟨p.1, p.2, none⟩ : Entry V)).reverse ++
          [⟨k2, v2, none⟩]) ++ [⟨k1, v1, none⟩]⟩ : LRUCache V).Get k1 t1).2 =
      ⟨2 + (rest2.length : Int),
        (((k1, v1) :: (k2, v2) :: rest2).map Prod.fst).toFinset,
        ⟨k1, v1, none⟩ ::
          ((rest2.map fun p => (⟨p.1, p.2, none⟩ : Entry V)).reverse ++
            [⟨k2, v2, none⟩])⟩ := by
    rw [hget1]
    dsimp only
    rw [herase1]
  -- the middle block never carries k2 either
  have hmidk2 : ∀ x ∈ (rest2.map fun p => (⟨p.1, p.2, none⟩ : Entry V)).reverse,
      (x.key == k2) = false := fun x hx =>
    beq_eq_false_iff_ne.2 (fun h => hk2rest (h ▸ hkeysR x hx))
  have hk2K : k2 ∈ (((k1, v1) :: (k2, v2) :: rest2).map Prod.fst).toFinset := by
    rw [List.mem_toFinset, List.map_cons, List.map_cons]
    exact List.mem_cons_of_mem _ (List.mem_cons_self _ _)
  have hknewK : knew ∉ (((k1, v1) :: (k2, v2) :: rest2).map Prod.fst).toFinset := by
    intro h
    rw [List.mem_toFinset, List.map_cons, List.map_cons] at h
    exact hA2 h
  -- the insert of the fresh key evicts the back node, which is k2
  have hrem : (⟨2 + (rest2.length : Int),
      (((k1, v1) :: (k2, v2) :: rest2).map Prod.fst).toFinset,
      ⟨k1, v1, none⟩ ::
        ((rest2.map fun p => (⟨p.1, p.2, none⟩ : Entry V)).reverse ++
          [⟨k2, v2, none⟩])⟩ : LRUCache V).remove k2 =
      ⟨2 + (rest2.length : Int),
        ((((k1, v1) :: (k2, v2) :: rest2).map Prod.fst).toFinset).erase k2,
        ⟨k1, v1, none⟩ ::
          (rest2.map fun p => (⟨p.1, p.2, none⟩ : Entry V)).reverse⟩ := by
    unfold remove
    rw [if_pos hk2K]
    have hrw : ((⟨k1, v1, none⟩ : Entry V) ::
        ((rest2.map fun p => (⟨p.1, p.2, none⟩ : Entry V)).reverse ++
          [(⟨k2, v2, none⟩ : Entry V)])).eraseP (fun e => e.key == k2) =
        ⟨k1, v1, none⟩ ::
          (rest2.map fun p => (⟨p.1, p.2, none⟩ : Entry V)).reverse := by
      rw [List.eraseP_cons]
      have h1 : ((⟨k1, v1, none⟩ : Entry V).key == k2) = false :=
        beq_eq_false_iff_ne.2 hk1k2
      rw [h1]
      rw [eraseP_last (e := ⟨k2, v2, none⟩) (by simp) hmidk2]
      rfl
    rw [hrw]
  have hfull : (((⟨k1, v1, none⟩ : Entry V) ::
      ((rest2.map fun p => (⟨p.1, p.2, none⟩ : Entry V)).reverse ++
        [(⟨k2, v2, none⟩ : Entry V)])).length : Int) ≥
      2 + (rest2.length : Int) := by
    simp
    omega
  have hlast : ((⟨k1, v1, none⟩ : Entry V) ::
      ((rest2.map fun p => (⟨p.1, p.2, none⟩ : Entry V)).reverse ++
        [(⟨k2, v2, none⟩ : Entry V)])).getLast? = some ⟨k2, v2, none⟩ := by
    rw [show (⟨k1, v1, none⟩ : Entry V) ::
        ((rest2.map fun p => (⟨p.1, p.2, none⟩ : Entry V)).reverse ++
          [(⟨k2, v2, none⟩ : Entry V)]) =
        ((⟨k1, v1, none⟩ :: (rest2.map fun p =>
          (⟨p.1, p.2, none⟩ : Entry V)).reverse) ++
          [(⟨k2, v2, none⟩ : Entry V)]) from rfl]
    exact List.getLast?_concat _
  have hset2 := set_full (c := ⟨2 + (rest2.length : Int),
      (((k1, v1) :: (k2, v2) :: rest2).map Prod.fst).toFinset,
      ⟨k1, v1, none⟩ ::
        ((rest2.map fun p => (⟨p.1, p.2, none⟩ : Entry V)).reverse ++
          [⟨k2, v2, none⟩])⟩)
    (k := knew) (v := vnew) (e := ⟨k2, v2, none⟩) hknewK hfull hlast
  have hs3 : ((⟨2 + (rest2.length : Int),
      (((k1, v1) :: (k2, v2) :: rest2).map Prod.fst).toFinset,
      ⟨k1, v1, none⟩ ::
        ((rest2.map fun p => (⟨p.1, p.2, none⟩ : Entry V)).reverse ++
          [⟨k2, v2, none⟩])⟩ : LRUCache V).Set knew vnew).1 =
      ⟨2 + (rest2.length : Int),
        insert knew (((((k1, v1) :: (k2, v2) :: rest2).map
            Prod.fst).toFinset).erase k2),
        ⟨knew, vnew, none⟩ :: ⟨k1, v1, none⟩ ::
          (rest2.map fun p => (⟨p.1, p.2, none⟩ : Entry V)).reverse⟩ := by
    rw [hset2]
    dsimp only
    rw [hrem]
  -- the final lookups
  have hget2 := get_hit (c := ⟨2 + (rest2.length : Int),
      insert knew (((((k1, v1) :: (k2, v2) :: rest2).map
          Prod.fst).toFinset).erase k2),
      ⟨knew, vnew, none⟩ :: ⟨k1, v1, none⟩ ::
        (rest2.map fun p => (⟨p.1, p.2, none⟩ : Entry V)).reverse⟩)
    (k := k1) (e := ⟨k1, v1, none⟩) (t := t2)
    (by
      refine Finset.mem_insert_of_mem (Finset.mem_erase.2 ⟨hk1k2, ?_⟩)
      rw [List.mem_toFinset, List.map_cons, List.map_cons]
      exact List.mem_cons_self _ _)
    (by
      rw [find?_cons_key_ne (beq_eq_false_iff_ne.2 hknew1)]
      exact find?_cons_key_eq (by simp))
    rfl
  have hmiss3 : ((⟨2 + (rest2.length : Int),
      insert knew (((((k1, v1) :: (k2, v2) :: rest2).map
          Prod.fst).toFinset).erase k2),
      ⟨knew, vnew, none⟩ :: ⟨k1, v1, none⟩ ::
        (rest2.map fun p => (⟨p.1, p.2, none⟩ : Entry V)).reverse⟩ :
        LRUCache V).Get k2 t3) = ((none, false), _) :=
    get_miss (by
      rw [Finset.mem_insert]
      push_neg
      exact ⟨fun h => hknew2 h.symm, Finset.not_mem_erase _ _⟩)
  refine ⟨?_, ?_, ?_⟩
  · rw [hs1', hget1]
  · rw [hs1', hget1', hs3, hget2]
  · rw [hs1', hget1', hs3, hmiss3]

/-- Below capacity no insert evicts: fill a fresh cache of capacity
`cap > 1 + |restB|` with distinct keys, `Get` the first, insert one more
fresh key — the count grows to `n + 1` and every key is still present. -/
theorem no_eviction_scenario (k1 knew : String) (v1 vnew : V)
    (restB : List (String × V)) (cap t1 : Int)
    (hB1 : (k1 :: restB.map Prod.fst).Nodup)
    (hB2 : knew ∉ k1 :: restB.map Prod.fst)
    (hBcap : (1 + (restB.length : Int)) < cap) :
    ((((runOps (NewLRUCache V cap)
        (((k1, v1) :: restB).map fun p => Op.set p.1 p.2)).Get k1 t1).2.Set
          knew vnew).1.Len = restB.length + 2) ∧
    (knew ∈ (((runOps (NewLRUCache V cap)
        (((k1, v1) :: restB).map fun p => Op.set p.1 p.2)).Get k1 t1).2.Set
          knew vnew).1.items) ∧
    (∀ p ∈ (k1, v1) :: restB,
      p.1 ∈ (((runOps (NewLRUCache V cap)
        (((k1, v1) :: restB).map fun p => Op.set p.1 p.2)).Get k1 t1).2.Set
          knew vnew).1.items) := by
  have hk1rest : k1 ∉ restB.map Prod.fst := (List.nodup_cons.1 hB1).1
  have hnodupB : (((k1, v1) :: restB).map Prod.fst).Nodup := by
    rw [List.map_cons]
    exact hB1
  have hs1 := runSets_fresh ((k1, v1) :: restB) (NewLRUCache V cap) hnodupB
    (fun p _ => by simp [NewLRUCache])
    (by simp [NewLRUCache]; omega)
  have hs1' : runOps (NewLRUCache V cap)
      (((k1, v1) :: restB).map fun p => Op.set p.1 p.2) =
      ⟨cap, (((k1, v1) :: restB).map Prod.fst).toFinset,
        (restB.map fun p => (⟨p.1, p.2, none⟩ : Entry V)).reverse ++
          [⟨k1, v1, none⟩]⟩ := by
    rw [hs1]
    simp [NewLRUCache, List.reverse_cons]
  have hkeysR : ∀ x ∈ (restB.map fun p => (⟨p.1, p.2, none⟩ : Entry V)).reverse,
      x.key ∈ restB.map Prod.fst := by
    intro x hx
    rcases List.mem_map.1 (List.mem_reverse.1 hx) with ⟨p, hp, rfl⟩
    exact List.mem_map_of_mem _ hp
  have hmidk1 : ∀ x ∈ (restB.map fun p => (⟨p.1, p.2, none⟩ : Entry V)).reverse,
      (x.key == k1) = false := fun x hx =>
    beq_eq_false_iff_ne.2 (fun h => hk1rest (h ▸ hkeysR x hx))
  have hfind1 : ((restB.map fun p => (⟨p.1, p.2, none⟩ : Entry V)).reverse ++
      [(⟨k1, v1, none⟩ : Entry V)]).find? (fun x => x.key == k1) =
      some ⟨k1, v1, none⟩ :=
    find?_last (e := ⟨k1, v1, none⟩) (by simp) hmidk1
  have herase1 : ((restB.map fun p => (⟨p.1, p.2, none⟩ : Entry V)).reverse ++
      [(⟨k1, v1, none⟩ : Entry V)]).eraseP (fun x => x.key == k1) =
      (restB.map fun p => (⟨p.1, p.2, none⟩ : Entry V)).reverse :=
    eraseP_last (e := ⟨k1, v1, none⟩) (by simp) hmidk1
  have hget1 := get_hit (c := ⟨cap,
      (((k1, v1) :: restB).map Prod.fst).toFinset,
      (restB.map fun p => (⟨p.1, p.2, none⟩ : Entry V)).reverse ++
        [⟨k1, v1, none⟩]⟩)
    (k := k1) (e := ⟨k1, v1, none⟩) (t := t1) (by simp) hfind1 rfl
  have hget1' : ((⟨cap, (((k1, v1) :: restB).map Prod.fst).toFinset,
      (restB.map fun p => (⟨p.1, p.2, none⟩ : Entry V)).reverse ++
        [⟨k1, v1, none⟩]⟩ : LRUCache V).Get k1 t1).2 =
      ⟨cap, (((k1, v1) :: restB).map Prod.fst).toFinset,
        ⟨k1, v1, none⟩ ::
          (restB.map fun p => (⟨p.1, p.2, none⟩ : Entry V)).reverse⟩ := by
    rw [hget1]
    dsimp only
    rw [herase1]
  have hknewK : knew ∉ (((k1, v1) :: restB).map Prod.fst).toFinset := by
    intro h
    rw [List.mem_toFinset, List.map_cons] at h
    exact hB2 h
  have hset2 := set_fresh (c := ⟨cap,
      (((k1, v1) :: restB).map Prod.fst).toFinset,
      ⟨k1, v1, none⟩ ::
        (restB.map fun p => (⟨p.1, p.2, none⟩ : Entry V)).reverse⟩)
    (k := knew) (v := vnew) hknewK (by simp; omega)
  rw [hs1', hget1', hset2]
  refine ⟨?_, ?_, ?_⟩
  · simp [Len]
  · exact Finset.mem_insert_self _ _
  · intro p hp
    refine Finset.mem_insert_of_mem ?_
    rw [List.mem_toFinset]
    exact List.mem_map_of_mem Prod.fst hp

end LRUCache

open LRUCache in
/-- C2 (amended).  The concrete capacity-2 end-to-end example holds exactly
as specified. The general clause holds in this form: after inserting
`n = C ≥ 2` distinct keys into a fresh cache of capacity `C` and `Get`-ing
the first, inserting one more fresh key evicts the second-inserted key — the
least recently touched once the `Get` refreshed the first — while the
`Get`-ed key survives with its value; when `n < C` the extra insert evicts
nothing: the count grows to `n + 1` and every key is still present. -/
theorem claim_C2_amended {V : Type} (k1 k2 knew : String) (v1 v2 vnew : V)
    (rest2 restB : List (String × V)) (cap t1 t2 t3 t4 : Int)
    (hA1 : (k1 :: k2 :: rest2.map Prod.fst).Nodup)
    (hA2 : knew ∉ k1 :: k2 :: rest2.map Prod.fst)
    (hB1 : (k1 :: restB.map Prod.fst).Nodup)
    (hB2 : knew ∉ k1 :: restB.map Prod.fst)
    (hBcap : (1 + (restB.length : Int)) < cap) :
    (((NewLRUCache String 2).Set "a" "1").2 = setStatusAdded ∧
      ((((NewLRUCache String 2).Set "a" "1").1).Set "b" "2").2 =
        setStatusAdded ∧
      (((((NewLRUCache String 2).Set "a" "1").1).Set "b" "2").1.Get
          "a" 10).1 = (some "1", true) ∧
      ((((((NewLRUCache String 2).Set "a" "1").1).Set "b" "2").1.Get
          "a" 10).2.Set "c" "3").2 = setStatusAdded ∧
      (((((((NewLRUCache String 2).Set "a" "1").1).Set "b" "2").1.Get
          "a" 10).2.Set "c" "3").1.Get "b" 11).1 = (none, false) ∧
      ((((((((NewLRUCache String 2).Set "a" "1").1).Set "b" "2").1.Get
          "a" 10).2.Set "c" "3").1.Get "b" 11).2.Get "a" 12).1 =
        (some "1", true) ∧
      (((((((((NewLRUCache String 2).Set "a" "1").1).Set "b" "2").1.Get
          "a" 10).2.Set "c" "3").1.Get "b" 11).2.Get "a" 12).2.Get
            "c" 13).1 = (some "3", true)) ∧
    (((runOps (NewLRUCache V (2 + rest2.length))
        (((k1, v1) :: (k2, v2) :: rest2).map fun p => Op.set p.1 p.2)).Get
          k1 t1).1 = (some v1, true) ∧
      (((((runOps (NewLRUCache V (2 + rest2.length))
        (((k1, v1) :: (k2, v2) :: rest2).map fun p => Op.set p.1 p.2)).Get
          k1 t1).2.Set knew vnew).1.Get k1 t2).1 = (some v1, true)) ∧
      (((((runOps (NewLRUCache V (2 + rest2.length))
        (((k1, v1) :: (k2, v2) :: rest2).map fun p => Op.set p.1 p.2)).Get
          k1 t1).2.Set knew vnew).1.Get k2 t3).1 = (none, false))) ∧
    (((((runOps (NewLRUCache V cap)
        (((k1, v1) :: restB).map fun p => Op.set p.1 p.2)).Get k1 t4).2.Set
          knew vnew).1.Len = restB.length + 2) ∧
      (knew ∈ (((runOps (NewLRUCache V cap)
        (((k1, v1) :: restB).map fun p => Op.set p.1 p.2)).Get k1 t4).2.Set
          knew vnew).1.items) ∧
      (∀ p ∈ (k1, v1) :: restB,
        p.1 ∈ (((runOps (NewLRUCache V cap)
          (((k1, v1) :: restB).map fun p => Op.set p.1 p.2)).Get k1 t4).2.Set
            knew vnew).1.items)) :=
  ⟨by decide,
    lru_eviction_scenario k1 k2 knew v1 v2 vnew rest2 t1 t2 t3 hA1 hA2,
    no_eviction_scenario k1 knew v1 vnew restB cap t4 hB1 hB2 hBcap⟩

/-- Counterexample to C2's general clause as stated for all `n ≤ C`: with
`n = C = 1` the `Get`-ed key is itself evicted by the next insert (it does
not survive), and with `n = 1 < C = 2` the extra insert evicts nothing at
all. -/
theorem claim_C2_counterexample :
    ((((((NewLRUCache String 1).Set "a" "1").1.Get "a" 0).2.Set "b" "2").1.Get "a" 1).1 = ((none : Option String), false)) ∧
    (((((NewLRUCache String 2).Set "a" "1").1.Get "a" 0).2.Set "b" "2").1.Len = 2) ∧
    ((((((NewLRUCache String 2).Set "a" "1").1.Get "a" 0).2.Set "b" "2").1.Get "a" 1).1 = (some "1", true)) := by
  decide

/-- Witness for C2 (amended) at `n = C = 2` and `n = 1 < C = 2`. -/
theorem claim_C2_amended_witness :
    ((("a" : String) :: "b" :: ([] : List (String × String)).map Prod.fst).Nodup ∧ (("c" : String) ∉ ("a" : String) :: "b" :: ([] : List (String × String)).map Prod.fst) ∧ (("a" : String) :: [("x", "9")].map Prod.fst).Nodup ∧ (("c" : String) ∉ ("a" : String) :: [("x", "9")].map Prod.fst) ∧ ((1 + (([("x", "9")] : List (String × String)).length : Int)) < 9)) ∧
    ((((runOps (NewLRUCache String (2 + ([] : List (String × String)).length))
        ((("a", "1") :: ("b", "2") :: ([] : List (String × String))).map
          fun p => Op.set p.1 p.2)).Get "a" 0).1 = (some "1", true)) ∧ (((((runOps (NewLRUCache String (2 + ([] : List (String × String)).length))
        ((("a", "1") :: ("b", "2") :: ([] : List (String × String))).map
          fun p => Op.set p.1 p.2)).Get "a" 0).2.Set "c" "3").1.Get "a" 1).1 = (some "1", true)) ∧ (((((runOps (NewLRUCache String (2 + ([] : List (String × String)).length))
        ((("a", "1") :: ("b", "2") :: ([] : List (String × String))).map
          fun p => Op.set p.1 p.2)).Get "a" 0).2.Set "c" "3").1.Get "b" 2).1 = (none, false))) ∧
    (((((runOps (NewLRUCache String 9)
        ((("a", "1") :: [("x", "9")]).map fun p => Op.set p.1 p.2)).Get "a" 3).2.Set "c" "3").1.Len = [("x", "9")].length + 2) ∧ ("c" ∈ (((runOps (NewLRUCache String 9)
        ((("a", "1") :: [("x", "9")]).map fun p => Op.set p.1 p.2)).Get "a" 3).2.Set "c" "3").1.items) ∧ (∀ p ∈ ("a", "1") :: [("x", "9")], p.1 ∈ (((runOps (NewLRUCache String 9)
        ((("a", "1") :: [("x", "9")]).map fun p => Op.set p.1 p.2)).Get "a" 3).2.Set "c" "3").1.items)) := by
  have h := claim_C2_amended (V := String) "a" "b" "c" "1" "2" "3"
    ([] : List (String × String)) [("x", "9")] 9 0 1 2 3
    (by decide) (by decide) (by decide) (by decide) (by decide)
  exact ⟨⟨by decide, by decide, by decide, by decide, by decide⟩,
    h.2.1, h.2.2⟩

end Caching
